import Mathlib

/-!
Shallow embedding of `broadcast.go` (package `broadcast`, type `Channel[T]`)
and proofs about its registry-plus-dispatch logic.

The Go value `chan<- T` held by each subscriber is modelled by `Sink`: a
bounded queue (`buf`, `capacity`) plus a closed flag.  Sink identity (Go
reference equality on channels) is modelled by a `Nat` identifier, and the
heap of all subscriber channels by a function `Nat → Sink T`.

`ChannelState` bundles the three data fields of the Go struct `Channel[T]`
(`closed`, `listeners`, `last`) together with that heap, so that the
methods — which close and fill subscriber channels — can be written as pure
state transformers.  The mutex `lk` serialises all operations in Go; each
Lean function below is one complete critical section, so the interleaving
semantics of the Go object is exactly a sequence of these functions
(captured by `Op`, `step` and `run`).
-/

namespace Broadcast

/-- A subscriber's bounded channel (`chan T` in Go): queued values, queue
capacity, and whether the channel has been closed.  A non-blocking send
(`select` with `default`) succeeds exactly when `buf.length < capacity`;
`close` marks the channel closed, and buffered values remain readable. -/
structure Sink (T : Type) where
  buf : List T
  capacity : Nat
  closed : Bool
deriving Repr

/-- The state of one `Channel[T]` value (fields `closed`, `listeners`,
`last` of the Go struct, `broadcast.go` lines 9-14) together with the heap
of subscriber channels, keyed by sink identity.  The Go zero value of
`last` is modelled by `default` of an `Inhabited` instance. -/
structure ChannelState (T : Type) where
  closed : Bool
  listeners : List Nat
  last : T
  sinks : Nat → Sink T

/-- `close(ch)` on a Go channel: mark it closed; its buffer is kept. -/
def markClosed {T : Type} (s : Sink T) : Sink T :=
  { s with closed := true }

/-- Pointwise update of the sink heap at one identity. -/
def updateSink {T : Type} (f : Nat → Sink T) (id : Nat) (s : Sink T) :
    Nat → Sink T :=
  fun j => if j = id then s else f j

/-- Swap-with-last removal at index `i`, as in the Go idiom
`c.listeners[i] = c.listeners[len-1]; c.listeners = c.listeners[:len-1]`
(`broadcast.go` lines 45-46 and 92-94).  On an empty list (no last
element) it is the identity; the callers only reach it with `i` in
bounds. -/
def swapRemove {α : Type} (l : List α) (i : Nat) : List α :=
  match l.getLast? with
  | none => l
  | some y => (l.set i y).take (l.length - 1)

/-- The deregistration capability returned by `Subscribe`: either the no-op
closure `func() {}` returned on a closed channel (line 29), or the closure
capturing the subscribed sink's identity (lines 39-51). -/
inductive Closer where
  | noop
  | dereg (ch : Nat)
deriving Repr, DecidableEq

/-- `Channel.Subscribe` (`broadcast.go` lines 23-52).  On a closed channel:
`runtime.Gosched()` (a scheduling hint with no state effect) and return the
last value with a no-op closer, without touching the registry.  If the sink
is already registered: panic — modelled as `Except.error`, with the channel
state unmodified, as in Go where the panic fires before the append.
Otherwise append the sink and return the last value and its closer. -/
def Subscribe {T : Type} (ch : Nat) (s : ChannelState T) :
    Except String (T × Closer × ChannelState T) :=
  if s.closed then
    Except.ok (s.last, Closer.noop, s)
  else if ch ∈ s.listeners then
    Except.error "channel passed multiple times to Subscribe()"
  else
    Except.ok (s.last, Closer.dereg ch,
      { s with listeners := s.listeners ++ [ch] })

/-- `Channel.IsClosed` (`broadcast.go` lines 54-58). -/
def IsClosed {T : Type} (s : ChannelState T) : Bool :=
  s.closed

/-- The loop of `Channel.Close` (lines 69-71): close every listener's
channel, in order. -/
def closeSinks {T : Type} : List Nat → (Nat → Sink T) → (Nat → Sink T)
  | [], sk => sk
  | id :: ids, sk => closeSinks ids (updateSink sk id (markClosed (sk id)))

/-- `Channel.Close` (`broadcast.go` lines 65-73): set `closed`, close every
registered sink, and empty the registry (`c.listeners = nil`). -/
def Close {T : Type} (s : ChannelState T) : ChannelState T :=
  { s with closed := true,
           listeners := [],
           sinks := closeSinks s.listeners s.sinks }

/-- `Channel.Last` (`broadcast.go` lines 75-79). -/
def Last {T : Type} (s : ChannelState T) : T :=
  s.last

/-- The fan-out loop of `Channel.Publish` (`broadcast.go` lines 84-96):
starting at index `i`, try a non-blocking send to `listeners[i]`; on
success advance `i`, on a full queue close the sink and swap-remove it
from the registry without advancing.  Returns the final registry and
sink heap. -/
def publishLoop {T : Type} (val : T) (i : Nat) (ls : List Nat)
    (sk : Nat → Sink T) : List Nat × (Nat → Sink T) :=
  if h : i < ls.length then
    let ch := ls[i]
    let sink := sk ch
    if sink.buf.length < sink.capacity then
      publishLoop val (i + 1) ls
        (updateSink sk ch { sink with buf := sink.buf ++ [val] })
    else
      publishLoop val i (swapRemove ls i) (updateSink sk ch (markClosed sink))
  else
    (ls, sk)
termination_by ls.length - i
decreasing_by
  · omega
  · have hlen : (swapRemove ls i).length = ls.length - 1 := by
      unfold swapRemove
      rw [List.getLast?_eq_getElem?, List.getElem?_eq_getElem (by omega)]
      simp
    omega

/-- `Channel.Publish` (`broadcast.go` lines 81-99): run the fan-out loop
from index 0, then unconditionally set `c.last = val` (line 98). -/
def Publish {T : Type} (val : T) (s : ChannelState T) : ChannelState T :=
  let r := publishLoop val 0 s.listeners s.sinks
  { s with listeners := r.1, sinks := r.2, last := val }

/-- The sequence of sink identities the fan-out loop attempts a delivery
to, in order: the instrumented trace of `publishLoop`, used to state that
every registered sink is attempted exactly once. -/
def publishLoopTrace {T : Type} (val : T) (i : Nat) (ls : List Nat)
    (sk : Nat → Sink T) : List Nat :=
  if h : i < ls.length then
    let ch := ls[i]
    let sink := sk ch
    if sink.buf.length < sink.capacity then
      ch :: publishLoopTrace val (i + 1) ls
        (updateSink sk ch { sink with buf := sink.buf ++ [val] })
    else
      ch :: publishLoopTrace val i (swapRemove ls i)
        (updateSink sk ch (markClosed sink))
  else
    []
termination_by ls.length - i
decreasing_by
  · omega
  · have hlen : (swapRemove ls i).length = ls.length - 1 := by
      unfold swapRemove
      rw [List.getLast?_eq_getElem?, List.getElem?_eq_getElem (by omega)]
      simp
    omega

/-- Invoking a deregistration capability (`broadcast.go` lines 39-51).
The no-op closer does nothing; the capturing closer scans for its sink
(first index with `listener == ch`), and if present swap-removes it and
closes it, otherwise falls through the loop and does nothing. -/
def runCloser {T : Type} (c : Closer) (s : ChannelState T) : ChannelState T :=
  match c with
  | Closer.noop => s
  | Closer.dereg ch =>
    match s.listeners.findIdx? (fun x => x == ch) with
    | some i =>
      { s with listeners := swapRemove s.listeners i,
               sinks := updateSink s.sinks ch (markClosed (s.sinks ch)) }
    | none => s

/-- The Go zero value of `Channel[T]` (the tests create one by
`var ch Channel[int]`): not closed, no listeners, `last` the zero value of
`T`; the sink heap is the caller-supplied environment. -/
def initState {T : Type} [Inhabited T] (f : Nat → Sink T) : ChannelState T :=
  { closed := false, listeners := [], last := default, sinks := f }

/-- One API call, for reachability reasoning: a `Subscribe`, `Publish`,
`Close`, `Last`, `IsClosed`, or deregistration-capability invocation. -/
inductive Op (T : Type) where
  | subscribe (ch : Nat)
  | publish (v : T)
  | close
  | readLast
  | readIsClosed
  | closer (c : Closer)

/-- Whether an API call is a `Publish`. -/
def isPublishOp {T : Type} : Op T → Bool
  | Op.publish _ => true
  | _ => false

/-- The state after one API call.  `Last` and `IsClosed` are pure reads; a
panicking `Subscribe` leaves the state unchanged (the Go panic fires before
any field is written, and the deferred unlock releases the mutex). -/
def step {T : Type} (op : Op T) (s : ChannelState T) : ChannelState T :=
  match op with
  | Op.subscribe ch =>
    match Subscribe ch s with
    | Except.ok r => r.2.2
    | Except.error _ => s
  | Op.publish v => Publish v s
  | Op.close => Close s
  | Op.readLast => s
  | Op.readIsClosed => s
  | Op.closer c => runCloser c s

/-- The state after a sequence of API calls. -/
def run {T : Type} (ops : List (Op T)) (s : ChannelState T) : ChannelState T :=
  ops.foldl (fun s op => step op s) s

/-- A sink environment over `Int` with zero-capacity sinks, used to
evaluate the operations at concrete inputs. -/
def intEnv : Nat → Sink Int := fun _ =>
  { buf := [], capacity := 0, closed := false }

/-- A sink environment where sink 0 has spare capacity and every other
sink has a full (zero-capacity) queue. -/
def exSinks : Nat → Sink Int := fun j =>
  if j = 0 then { buf := [], capacity := 1, closed := false }
  else { buf := [], capacity := 0, closed := false }

/-- A concrete open channel with sinks 0 and 1 registered. -/
def exSt : ChannelState Int :=
  { closed := false, listeners := [0, 1], last := 0, sinks := exSinks }

/-- A concrete channel that is already closed. -/
def closedSt : ChannelState Int :=
  { closed := true, listeners := [], last := 3, sinks := intEnv }

/-- A concrete open channel on which sink 5 is registered. -/
def dupSt : ChannelState Int :=
  { closed := false, listeners := [5], last := 0, sinks := intEnv }

/-- A concrete publish-free call sequence. -/
def wOps : List (Op Int) :=
  [Op.close, Op.subscribe 0, Op.readLast, Op.readIsClosed,
   Op.closer Closer.noop]

theorem swapRemove_eq_of_getLast? {α : Type} {l : List α} {y : α}
    (h : l.getLast? = some y) (i : Nat) :
    swapRemove l i = (l.set i y).take (l.length - 1) := by
  unfold swapRemove
  rw [h]

theorem swapRemove_concat {α : Type} (A : List α) (b : α) :
    swapRemove (A ++ [b]) A.length = A := by
  rw [swapRemove_eq_of_getLast? (List.getLast?_concat A)]
  rw [List.set_append_right _ _ (Nat.le_refl _)]
  simp

theorem swapRemove_mid {α : Type} (A : List α) (b : α) (M : List α) (y : α) :
    swapRemove (A ++ b :: (M ++ [y])) A.length = A ++ y :: M := by
  have hl : (A ++ b :: (M ++ [y])).getLast? = some y := by
    rw [show A ++ b :: (M ++ [y]) = (A ++ b :: M) ++ [y] from by simp,
      List.getLast?_concat]
  rw [swapRemove_eq_of_getLast? hl]
  rw [List.set_append_right _ _ (Nat.le_refl _)]
  simp only [Nat.sub_self, List.set_cons_zero, List.length_append,
    List.length_cons, List.length_nil]
  rw [show A.length + (M.length + (0 + 1) + 1) - 1 = A.length + (M.length + 1)
    from by omega]
  rw [List.take_append]
  rw [List.take_succ_cons]
  rw [List.take_left]

theorem length_swapRemove {α : Type} {l : List α} {i : Nat}
    (h : i < l.length) : (swapRemove l i).length = l.length - 1 := by
  have hne : l ≠ [] := by
    intro he; subst he; simp at h
  unfold swapRemove
  rw [List.getLast?_eq_getElem?, List.getElem?_eq_getElem (by omega)]
  simp

theorem nodup_swapRemove_mid {α : Type} {A : List α} {b : α} {M : List α}
    {y : α} (h : (A ++ b :: (M ++ [y])).Nodup) :
    (A ++ y :: M).Nodup := by
  simp only [List.nodup_append, List.nodup_cons, List.mem_append,
    List.mem_cons, List.mem_singleton, List.nodup_singleton,
    List.disjoint_cons_right, List.disjoint_append_right,
    List.disjoint_singleton] at h ⊢
  tauto

theorem notmem_swapRemove_mid {α : Type} {A : List α} {b : α} {M : List α}
    {y : α} (h : (A ++ b :: (M ++ [y])).Nodup) :
    b ∉ A ++ y :: M := by
  simp only [List.nodup_append, List.nodup_cons, List.mem_append,
    List.mem_cons, List.mem_singleton, List.nodup_singleton,
    List.disjoint_cons_right, List.disjoint_append_right,
    List.disjoint_singleton] at h
  simp only [List.mem_append, List.mem_cons]
  rintro (hb | hb | hb) <;> tauto

theorem mem_swapRemove_mid {α : Type} {A : List α} {b : α} {M : List α}
    {y : α} {x : α} (h : x ∈ A ++ y :: M) :
    x ∈ A ++ b :: (M ++ [y]) := by
  simp only [List.mem_append, List.mem_cons, List.mem_singleton] at h ⊢
  tauto

theorem exists_decomp {α : Type} (l : List α) (i : Nat) (h : i < l.length) :
    ∃ A b D, l = A ++ b :: D ∧ A.length = i ∧ b = l[i] := by
  refine ⟨l.take i, l[i], l.drop (i + 1), ?_, ?_, rfl⟩
  · conv_lhs => rw [← List.take_append_drop i l]
    rw [List.getElem_cons_drop]
  · simp [List.length_take]
    omega

theorem publishLoop_stop {T : Type} {val : T} {i : Nat} {ls : List Nat}
    {sk : Nat → Sink T} (h : ¬ i < ls.length) :
    publishLoop val i ls sk = (ls, sk) := by
  unfold publishLoop
  simp [h]

theorem publishLoop_accept {T : Type} {val : T} {i : Nat} {ls : List Nat}
    {sk : Nat → Sink T} (h : i < ls.length)
    (hc : (sk ls[i]).buf.length < (sk ls[i]).capacity) :
    publishLoop val i ls sk =
      publishLoop val (i + 1) ls
        (updateSink sk ls[i] { sk ls[i] with buf := (sk ls[i]).buf ++ [val] }) := by
  conv_lhs => unfold publishLoop
  simp [h, hc]

theorem publishLoop_evict {T : Type} {val : T} {i : Nat} {ls : List Nat}
    {sk : Nat → Sink T} (h : i < ls.length)
    (hc : ¬ (sk ls[i]).buf.length < (sk ls[i]).capacity) :
    publishLoop val i ls sk =
      publishLoop val i (swapRemove ls i)
        (updateSink sk ls[i] (markClosed (sk ls[i]))) := by
  conv_lhs => unfold publishLoop
  simp [h, hc]

theorem publishLoop_spec {T : Type} (val : T) :
    ∀ (fuel i : Nat) (ls : List Nat) (sk : Nat → Sink T),
    ls.length - i ≤ fuel → ls.Nodup →
    (∀ ch, ch ∉ ls.drop i → (publishLoop val i ls sk).2 ch = sk ch) ∧
    (publishLoop val i ls sk).1.take i = ls.take i ∧
    (∀ ch, ch ∈ (publishLoop val i ls sk).1 → ch ∈ ls) ∧
    (publishLoop val i ls sk).1.Nodup ∧
    (∀ ch, ch ∈ ls.drop i →
      if (sk ch).buf.length < (sk ch).capacity
      then ch ∈ (publishLoop val i ls sk).1 ∧
        (publishLoop val i ls sk).2 ch =
          { sk ch with buf := (sk ch).buf ++ [val] }
      else ch ∉ (publishLoop val i ls sk).1 ∧
        (publishLoop val i ls sk).2 ch = markClosed (sk ch)) := by
  intro fuel
  induction fuel with
  | zero =>
    intro i ls sk hf hnd
    have hge : ls.length ≤ i := by omega
    rw [publishLoop_stop (by omega)]
    have hdrop : ls.drop i = [] := List.drop_eq_nil_of_le hge
    refine ⟨fun ch _ => rfl, rfl, fun ch hc => hc, hnd, ?_⟩
    intro ch hch
    rw [hdrop] at hch
    simp at hch
  | succ fuel ih =>
    intro i ls sk hf hnd
    by_cases hi : i < ls.length
    · obtain ⟨A, b, D, hls, hA, hb⟩ := exists_decomp ls i hi
      subst hls
      have hgetb : (A ++ b :: D)[i] = b := hb.symm
      have hdropi : (A ++ b :: D).drop i = b :: D := List.drop_left' hA
      have htakei : (A ++ b :: D).take i = A := List.take_left' hA
      have hndA : A.Nodup := by
        simp only [List.nodup_append] at hnd
        exact hnd.1
      have hbD : b ∉ D := by
        simp only [List.nodup_append, List.nodup_cons] at hnd
        exact hnd.2.1.1
      have hbA : b ∉ A := by
        simp only [List.nodup_append, List.Disjoint] at hnd
        intro hx
        exact hnd.2.2 hx (List.mem_cons_self b D)
      by_cases hc : (sk b).buf.length < (sk b).capacity
      · -- successful non-blocking send: i advances, b's buffer gains val
        have hstep : publishLoop val i (A ++ b :: D) sk =
            publishLoop val (i + 1) (A ++ b :: D)
              (updateSink sk b { sk b with buf := (sk b).buf ++ [val] }) := by
          have h1 := @publishLoop_accept T val i (A ++ b :: D) sk hi
            (by rw [hgetb]; exact hc)
          rw [hgetb] at h1
          exact h1
        rw [hstep]
        set sk1 := updateSink sk b { sk b with buf := (sk b).buf ++ [val] }
          with hsk1
        have hsk1ne : ∀ ch, ch ≠ b → sk1 ch = sk ch := by
          intro ch hne
          simp [hsk1, updateSink, hne]
        have hsk1e : sk1 b = { sk b with buf := (sk b).buf ++ [val] } := by
          simp [hsk1, updateSink]
        obtain ⟨pa, pb, pc, pd, pe⟩ := ih (i + 1) (A ++ b :: D) sk1
          (by simp only [List.length_append, List.length_cons] at hf ⊢; omega)
          hnd
        have hdropsucc : (A ++ b :: D).drop (i + 1) = D := by
          rw [show A ++ b :: D = (A ++ [b]) ++ D from by simp]
          exact List.drop_left' (by simp [hA])
        have htakesucc : (A ++ b :: D).take (i + 1) = A ++ [b] := by
          rw [show A ++ b :: D = (A ++ [b]) ++ D from by simp]
          exact List.take_left' (by simp [hA])
        refine ⟨?_, ?_, pc, pd, ?_⟩
        · intro ch hch
          rw [hdropi] at hch
          simp only [List.mem_cons, not_or] at hch
          rw [pa ch (by rw [hdropsucc]; exact hch.2), hsk1ne ch hch.1]
        · have h1 : (publishLoop val (i + 1) (A ++ b :: D) sk1).1.take i =
              ((publishLoop val (i + 1) (A ++ b :: D) sk1).1.take (i + 1)).take
                i := by
            rw [List.take_take, Nat.min_eq_left (by omega)]
          rw [h1, pb, List.take_take, Nat.min_eq_left (by omega)]
        · intro ch hch
          rw [hdropi] at hch
          rcases List.mem_cons.mp hch with rfl | hmem
          · rw [if_pos hc]
            refine ⟨?_, ?_⟩
            · apply List.take_subset (i + 1)
              rw [pb, htakesucc]
              simp
            · rw [pa _ (by rw [hdropsucc]; exact hbD), hsk1e]
          · have hne : ch ≠ b := by
              intro he
              subst he
              exact hbD hmem
            have hres := pe ch (by rw [hdropsucc]; exact hmem)
            rw [hsk1ne ch hne] at hres
            exact hres
      · -- full queue: b is closed and swap-removed, i stays
        have hstep : publishLoop val i (A ++ b :: D) sk =
            publishLoop val i (swapRemove (A ++ b :: D) i)
              (updateSink sk b (markClosed (sk b))) := by
          have h1 := @publishLoop_evict T val i (A ++ b :: D) sk hi
            (by rw [hgetb]; exact hc)
          rw [hgetb] at h1
          exact h1
        rw [hstep]
        set sk1 := updateSink sk b (markClosed (sk b)) with hsk1
        have hsk1ne : ∀ ch, ch ≠ b → sk1 ch = sk ch := by
          intro ch hne
          simp [hsk1, updateSink, hne]
        have hsk1e : sk1 b = markClosed (sk b) := by
          simp [hsk1, updateSink]
        rcases List.eq_nil_or_concat D with rfl | ⟨M, y, hD⟩
        · -- b was the final pending listener
          have hsw : swapRemove (A ++ b :: ([] : List Nat)) i = A := by
            rw [show A ++ b :: ([] : List Nat) = A ++ [b] from rfl, ← hA]
            exact swapRemove_concat A b
          rw [hsw]
          obtain ⟨pa, pb, pc, pd, pe⟩ := ih i A sk1
            (by simp only [List.length_append, List.length_cons] at hf ⊢
                omega)
            hndA
          have hdropA : A.drop i = [] := by
            rw [← hA]
            exact List.drop_length A
          refine ⟨?_, ?_, ?_, pd, ?_⟩
          · intro ch hch
            rw [hdropi] at hch
            simp only [List.mem_cons, not_or] at hch
            rw [pa ch (by rw [hdropA]; simp), hsk1ne ch hch.1]
          · rw [pb, htakei, ← hA, List.take_length]
          · intro ch hch
            exact List.mem_append_left _ (pc ch hch)
          · intro ch hch
            rw [hdropi] at hch
            rcases List.mem_cons.mp hch with rfl | hmem
            · rw [if_neg hc]
              refine ⟨?_, ?_⟩
              · intro hbmem
                exact hbA (pc ch hbmem)
              · rw [pa ch (by rw [hdropA]; simp), hsk1e]
            · simp at hmem
        · -- a later pending listener y is swapped into b's slot
          rw [List.concat_eq_append] at hD
          subst hD
          have hsw : swapRemove (A ++ b :: (M ++ [y])) i = A ++ y :: M := by
            rw [← hA]
            exact swapRemove_mid A b M y
          rw [hsw]
          have hnd2 : (A ++ y :: M).Nodup := nodup_swapRemove_mid hnd
          obtain ⟨pa, pb, pc, pd, pe⟩ := ih i (A ++ y :: M) sk1
            (by simp only [List.length_append, List.length_cons] at hf ⊢
                omega)
            hnd2
          have hdrop2 : (A ++ y :: M).drop i = y :: M := List.drop_left' hA
          have htake2 : (A ++ y :: M).take i = A := List.take_left' hA
          have hbnot : b ∉ A ++ y :: M := notmem_swapRemove_mid hnd
          refine ⟨?_, ?_, ?_, pd, ?_⟩
          · intro ch hch
            rw [hdropi] at hch
            simp only [List.mem_cons, not_or, List.mem_append,
              List.mem_singleton] at hch
            have hch2 : ch ∉ (A ++ y :: M).drop i := by
              rw [hdrop2]
              simp only [List.mem_cons, not_or]
              tauto
            rw [pa ch hch2, hsk1ne ch hch.1]
          · rw [pb, htake2, htakei]
          · intro ch hch
            exact mem_swapRemove_mid (pc ch hch)
          · intro ch hch
            rw [hdropi] at hch
            rcases List.mem_cons.mp hch with rfl | hmem
            · rw [if_neg hc]
              refine ⟨?_, ?_⟩
              · intro hbmem
                exact hbnot (pc ch hbmem)
              · have hnot2 : ch ∉ (A ++ y :: M).drop i := by
                  rw [hdrop2]
                  intro hx
                  exact hbnot (List.mem_append_right A hx)
                rw [pa ch hnot2, hsk1e]
            · have hne : ch ≠ b := by
                intro he
                subst he
                exact hbD hmem
              have hmem2 : ch ∈ (A ++ y :: M).drop i := by
                rw [hdrop2]
                simp only [List.mem_append, List.mem_singleton] at hmem
                simp only [List.mem_cons]
                tauto
              have hres := pe ch hmem2
              rw [hsk1ne ch hne] at hres
              exact hres
    · rw [publishLoop_stop hi]
      have hdrop : ls.drop i = [] := List.drop_eq_nil_of_le (by omega)
      refine ⟨fun ch _ => rfl, rfl, fun ch hc => hc, hnd, ?_⟩
      intro ch hch
      rw [hdrop] at hch
      simp at hch

theorem publishLoopTrace_stop {T : Type} {val : T} {i : Nat} {ls : List Nat}
    {sk : Nat → Sink T} (h : ¬ i < ls.length) :
    publishLoopTrace val i ls sk = [] := by
  unfold publishLoopTrace
  simp [h]

theorem publishLoopTrace_accept {T : Type} {val : T} {i : Nat} {ls : List Nat}
    {sk : Nat → Sink T} (h : i < ls.length)
    (hc : (sk ls[i]).buf.length < (sk ls[i]).capacity) :
    publishLoopTrace val i ls sk =
      ls[i] :: publishLoopTrace val (i + 1) ls
        (updateSink sk ls[i] { sk ls[i] with buf := (sk ls[i]).buf ++ [val] }) := by
  conv_lhs => unfold publishLoopTrace
  simp [h, hc]

theorem publishLoopTrace_evict {T : Type} {val : T} {i : Nat} {ls : List Nat}
    {sk : Nat → Sink T} (h : i < ls.length)
    (hc : ¬ (sk ls[i]).buf.length < (sk ls[i]).capacity) :
    publishLoopTrace val i ls sk =
      ls[i] :: publishLoopTrace val i (swapRemove ls i)
        (updateSink sk ls[i] (markClosed (sk ls[i]))) := by
  conv_lhs => unfold publishLoopTrace
  simp [h, hc]

theorem publishLoopTrace_perm {T : Type} (val : T) :
    ∀ (fuel i : Nat) (ls : List Nat) (sk : Nat → Sink T),
    ls.length - i ≤ fuel → ls.Nodup →
    List.Perm (publishLoopTrace val i ls sk) (ls.drop i) := by
  intro fuel
  induction fuel with
  | zero =>
    intro i ls sk hf hnd
    rw [publishLoopTrace_stop (by omega),
      List.drop_eq_nil_of_le (by omega)]
  | succ fuel ih =>
    intro i ls sk hf hnd
    by_cases hi : i < ls.length
    · obtain ⟨A, b, D, hls, hA, hb⟩ := exists_decomp ls i hi
      subst hls
      have hgetb : (A ++ b :: D)[i] = b := hb.symm
      have hdropi : (A ++ b :: D).drop i = b :: D := List.drop_left' hA
      have hndA : A.Nodup := by
        simp only [List.nodup_append] at hnd
        exact hnd.1
      by_cases hc : (sk b).buf.length < (sk b).capacity
      · have hstep : publishLoopTrace val i (A ++ b :: D) sk =
            b :: publishLoopTrace val (i + 1) (A ++ b :: D)
              (updateSink sk b { sk b with buf := (sk b).buf ++ [val] }) := by
          have h1 := @publishLoopTrace_accept T val i (A ++ b :: D) sk hi
            (by rw [hgetb]; exact hc)
          rw [hgetb] at h1
          exact h1
        rw [hstep, hdropi]
        have hdropsucc : (A ++ b :: D).drop (i + 1) = D := by
          rw [show A ++ b :: D = (A ++ [b]) ++ D from by simp]
          exact List.drop_left' (by simp [hA])
        have hrec := ih (i + 1) (A ++ b :: D)
          (updateSink sk b { sk b with buf := (sk b).buf ++ [val] })
          (by simp only [List.length_append, List.length_cons] at hf ⊢; omega)
          hnd
        rw [hdropsucc] at hrec
        exact hrec.cons b
      · have hstep : publishLoopTrace val i (A ++ b :: D) sk =
            b :: publishLoopTrace val i (swapRemove (A ++ b :: D) i)
              (updateSink sk b (markClosed (sk b))) := by
          have h1 := @publishLoopTrace_evict T val i (A ++ b :: D) sk hi
            (by rw [hgetb]; exact hc)
          rw [hgetb] at h1
          exact h1
        rw [hstep, hdropi]
        rcases List.eq_nil_or_concat D with rfl | ⟨M, y, hD⟩
        · have hsw : swapRemove (A ++ b :: ([] : List Nat)) i = A := by
            rw [show A ++ b :: ([] : List Nat) = A ++ [b] from rfl, ← hA]
            exact swapRemove_concat A b
          rw [hsw]
          have hrec := ih i A (updateSink sk b (markClosed (sk b)))
            (by simp only [List.length_append, List.length_cons] at hf ⊢
                omega)
            hndA
          rw [show A.drop i = [] from by rw [← hA]; exact List.drop_length A]
            at hrec
          rw [hrec.eq_nil]
        · rw [List.concat_eq_append] at hD
          subst hD
          have hsw : swapRemove (A ++ b :: (M ++ [y])) i = A ++ y :: M := by
            rw [← hA]
            exact swapRemove_mid A b M y
          rw [hsw]
          have hrec := ih i (A ++ y :: M) (updateSink sk b (markClosed (sk b)))
            (by simp only [List.length_append, List.length_cons] at hf ⊢
                omega)
            (nodup_swapRemove_mid hnd)
          rw [List.drop_left' hA] at hrec
          exact (hrec.trans (List.perm_append_singleton y M).symm).cons b
    · rw [publishLoopTrace_stop hi, List.drop_eq_nil_of_le (by omega)]

theorem closeSinks_eq {T : Type} :
    ∀ (ids : List Nat) (sk : Nat → Sink T) (ch : Nat),
    closeSinks ids sk ch = if ch ∈ ids then markClosed (sk ch) else sk ch := by
  intro ids
  induction ids with
  | nil =>
    intro sk ch
    simp [closeSinks]
  | cons id ids ih =>
    intro sk ch
    rw [closeSinks, ih]
    by_cases he : ch = id
    · subst he
      by_cases hm : ch ∈ ids <;> simp [hm, updateSink, markClosed]
    · by_cases hm : ch ∈ ids <;> simp [hm, he, updateSink]

theorem runCloser_dereg_eq {T : Type} (ch : Nat) (s : ChannelState T) :
    runCloser (Closer.dereg ch) s =
      (match s.listeners.findIdx? (fun x => x == ch) with
        | some i =>
          { s with listeners := swapRemove s.listeners i,
                   sinks := updateSink s.sinks ch (markClosed (s.sinks ch)) }
        | none => s) := rfl

theorem runCloser_notMem {T : Type} {ch : Nat} {s : ChannelState T}
    (h : ch ∉ s.listeners) : runCloser (Closer.dereg ch) s = s := by
  have hnone : s.listeners.findIdx? (fun x => x == ch) = none := by
    rw [List.findIdx?_eq_none_iff]
    intro x hx
    simp only [beq_eq_false_iff_ne, ne_eq]
    intro he
    subst he
    exact h hx
  rw [runCloser_dereg_eq, hnone]

theorem swapRemove_facts {α : Type} {ls : List α} {i : Nat}
    (hlt : i < ls.length) (hnd : ls.Nodup) :
    (swapRemove ls i).Nodup ∧ ls[i] ∉ swapRemove ls i ∧
    ∀ x ∈ swapRemove ls i, x ∈ ls := by
  obtain ⟨A, b, D, hls, hA, hb⟩ := exists_decomp ls i hlt
  subst hls
  rw [show (A ++ b :: D)[i] = b from hb.symm]
  have hndA : A.Nodup := by
    simp only [List.nodup_append] at hnd
    exact hnd.1
  have hbA : b ∉ A := by
    simp only [List.nodup_append, List.Disjoint] at hnd
    intro hx
    exact hnd.2.2 hx (List.mem_cons_self b D)
  rcases List.eq_nil_or_concat D with rfl | ⟨M, y, hD⟩
  · have hsw : swapRemove (A ++ b :: ([] : List α)) i = A := by
      rw [show A ++ b :: ([] : List α) = A ++ [b] from rfl, ← hA]
      exact swapRemove_concat A b
    rw [hsw]
    exact ⟨hndA, hbA, fun x hx => List.mem_append_left _ hx⟩
  · rw [List.concat_eq_append] at hD
    subst hD
    have hsw : swapRemove (A ++ b :: (M ++ [y])) i = A ++ y :: M := by
      rw [← hA]
      exact swapRemove_mid A b M y
    rw [hsw]
    exact ⟨nodup_swapRemove_mid hnd, notmem_swapRemove_mid hnd,
      fun x hx => mem_swapRemove_mid hx⟩

theorem runCloser_mem {T : Type} {ch : Nat} {s : ChannelState T}
    (hnd : s.listeners.Nodup) (h : ch ∈ s.listeners) :
    ch ∉ (runCloser (Closer.dereg ch) s).listeners ∧
    (runCloser (Closer.dereg ch) s).listeners.Nodup ∧
    (∀ x ∈ (runCloser (Closer.dereg ch) s).listeners, x ∈ s.listeners) ∧
    (runCloser (Closer.dereg ch) s).listeners.length =
      s.listeners.length - 1 ∧
    (runCloser (Closer.dereg ch) s).sinks ch = markClosed (s.sinks ch) ∧
    (∀ x, x ≠ ch → (runCloser (Closer.dereg ch) s).sinks x = s.sinks x) ∧
    (runCloser (Closer.dereg ch) s).closed = s.closed ∧
    (runCloser (Closer.dereg ch) s).last = s.last := by
  have hsome : s.listeners.findIdx? (fun x => x == ch) ≠ none := by
    intro hnone
    rw [List.findIdx?_eq_none_iff] at hnone
    exact absurd (by simp : (ch == ch) = true) (by simpa using hnone ch h)
  obtain ⟨i, hfind⟩ := Option.ne_none_iff_exists'.mp hsome
  obtain ⟨hlt, hp, _⟩ := List.findIdx?_eq_some_iff_getElem.mp hfind
  have hchi : s.listeners[i] = ch := by
    simpa using hp
  have hres : runCloser (Closer.dereg ch) s =
      { s with listeners := swapRemove s.listeners i,
               sinks := updateSink s.sinks ch (markClosed (s.sinks ch)) } := by
    rw [runCloser_dereg_eq, hfind]
  obtain ⟨f1, f2, f3⟩ := swapRemove_facts hlt hnd
  rw [hchi] at f2
  refine ⟨?_, ?_, ?_, ?_, ?_, ?_, ?_, ?_⟩
  · rw [hres]
    exact f2
  · rw [hres]
    exact f1
  · intro x hx
    rw [hres] at hx
    exact f3 x hx
  · rw [hres]
    exact length_swapRemove hlt
  · rw [hres]
    simp [updateSink]
  · intro x hx
    rw [hres]
    simp [updateSink, hx]
  · rw [hres]
  · rw [hres]

theorem run_nil {T : Type} (s : ChannelState T) : run ([] : List (Op T)) s = s := rfl

theorem run_cons {T : Type} (op : Op T) (ops : List (Op T))
    (s : ChannelState T) : run (op :: ops) s = run ops (step op s) := rfl

theorem run_append {T : Type} (ops1 ops2 : List (Op T)) (s : ChannelState T) :
    run (ops1 ++ ops2) s = run ops2 (run ops1 s) := by
  unfold run
  exact List.foldl_append _ _ _ _

theorem step_subscribe_closed {T : Type} {ch : Nat} {s : ChannelState T}
    (h : s.closed = true) : step (Op.subscribe ch) s = s := by
  unfold step Subscribe
  rw [h]
  simp

theorem Publish_closed {T : Type} (v : T) (s : ChannelState T) :
    (Publish v s).closed = s.closed := rfl

theorem Publish_last {T : Type} (v : T) (s : ChannelState T) :
    (Publish v s).last = v := rfl

theorem runCloser_closed {T : Type} (c : Closer) (s : ChannelState T) :
    (runCloser c s).closed = s.closed := by
  cases c with
  | noop => rfl
  | dereg ch =>
    rw [runCloser_dereg_eq]
    cases s.listeners.findIdx? (fun x => x == ch) <;> rfl

theorem runCloser_last {T : Type} (c : Closer) (s : ChannelState T) :
    (runCloser c s).last = s.last := by
  cases c with
  | noop => rfl
  | dereg ch =>
    rw [runCloser_dereg_eq]
    cases s.listeners.findIdx? (fun x => x == ch) <;> rfl

theorem step_closed_mono {T : Type} (op : Op T) (s : ChannelState T)
    (h : s.closed = true) : (step op s).closed = true := by
  cases op with
  | subscribe ch => rw [step_subscribe_closed h]; exact h
  | publish v => rw [step, Publish_closed]; exact h
  | close => rfl
  | readLast => exact h
  | readIsClosed => exact h
  | closer c => rw [step, runCloser_closed]; exact h

theorem step_closed_empty {T : Type} (op : Op T) (s : ChannelState T)
    (h1 : s.closed = true) (h2 : s.listeners = []) :
    (step op s).closed = true ∧ (step op s).listeners = [] := by
  refine ⟨step_closed_mono op s h1, ?_⟩
  cases op with
  | subscribe ch => rw [step_subscribe_closed h1]; exact h2
  | publish v =>
    show (Publish v s).listeners = []
    unfold Publish
    simp only
    rw [h2, publishLoop_stop (by simp)]
  | close => rfl
  | readLast => exact h2
  | readIsClosed => exact h2
  | closer c =>
    cases c with
    | noop => exact h2
    | dereg ch =>
      rw [show step (Op.closer (Closer.dereg ch)) s =
        runCloser (Closer.dereg ch) s from rfl]
      rw [runCloser_notMem (by rw [h2]; simp)]
      exact h2

theorem step_subscribe_add {T : Type} {ch : Nat} {s : ChannelState T}
    (h1 : s.closed = false) (h2 : ch ∉ s.listeners) :
    step (Op.subscribe ch) s = { s with listeners := s.listeners ++ [ch] } := by
  unfold step Subscribe
  rw [h1]
  simp [h2]

theorem step_subscribe_dup {T : Type} {ch : Nat} {s : ChannelState T}
    (h1 : s.closed = false) (h2 : ch ∈ s.listeners) :
    step (Op.subscribe ch) s = s := by
  unfold step Subscribe
  rw [h1]
  simp [h2]

theorem step_inv_closed_empty {T : Type} (op : Op T) (s : ChannelState T)
    (h : s.closed = true → s.listeners = []) :
    (step op s).closed = true → (step op s).listeners = [] := by
  by_cases hcl : s.closed = true
  · intro _
    exact (step_closed_empty op s hcl (h hcl)).2
  · have hcl' : s.closed = false := by
      cases hc : s.closed
      · rfl
      · exact absurd hc hcl
    cases op with
    | subscribe ch =>
      by_cases hm : ch ∈ s.listeners
      · rw [step_subscribe_dup hcl' hm]
        intro hc
        exact absurd hc hcl
      · rw [step_subscribe_add hcl' hm]
        intro hc
        exact absurd hc hcl
    | publish v =>
      intro hc
      rw [step, Publish_closed] at hc
      exact absurd hc hcl
    | close => intro _; rfl
    | readLast => intro hc; exact absurd hc hcl
    | readIsClosed => intro hc; exact absurd hc hcl
    | closer c =>
      intro hc
      rw [step, runCloser_closed] at hc
      exact absurd hc hcl

theorem Publish_listeners_nodup {T : Type} (v : T) (s : ChannelState T)
    (h : s.listeners.Nodup) : (Publish v s).listeners.Nodup := by
  have hs := publishLoop_spec v s.listeners.length 0 s.listeners s.sinks
    (by omega) h
  exact hs.2.2.2.1

theorem step_nodup {T : Type} (op : Op T) (s : ChannelState T)
    (h : s.listeners.Nodup) : (step op s).listeners.Nodup := by
  cases op with
  | subscribe ch =>
    by_cases hcl : s.closed = true
    · rw [step_subscribe_closed hcl]
      exact h
    · have hcl' : s.closed = false := by
        cases hc : s.closed
        · rfl
        · exact absurd hc hcl
      by_cases hm : ch ∈ s.listeners
      · rw [step_subscribe_dup hcl' hm]
        exact h
      · rw [step_subscribe_add hcl' hm]
        simp only
        simp [List.nodup_append, h, hm]
  | publish v => exact Publish_listeners_nodup v s h
  | close => simp [step, Close]
  | readLast => exact h
  | readIsClosed => exact h
  | closer c =>
    cases c with
    | noop => exact h
    | dereg ch =>
      by_cases hm : ch ∈ s.listeners
      · exact (runCloser_mem h hm).2.1
      · rw [show step (Op.closer (Closer.dereg ch)) s =
          runCloser (Closer.dereg ch) s from rfl, runCloser_notMem hm]
        exact h

theorem step_last_of_not_publish {T : Type} (op : Op T) (s : ChannelState T)
    (h : isPublishOp op = false) : (step op s).last = s.last := by
  cases op with
  | subscribe ch =>
    by_cases hcl : s.closed = true
    · rw [step_subscribe_closed hcl]
    · have hcl' : s.closed = false := by
        cases hc : s.closed
        · rfl
        · exact absurd hc hcl
      by_cases hm : ch ∈ s.listeners
      · rw [step_subscribe_dup hcl' hm]
      · rw [step_subscribe_add hcl' hm]
  | publish v => simp [isPublishOp] at h
  | close => rfl
  | readLast => rfl
  | readIsClosed => rfl
  | closer c => exact runCloser_last c s

theorem run_closed_empty {T : Type} (ops : List (Op T)) :
    ∀ (s : ChannelState T), s.closed = true → s.listeners = [] →
    (run ops s).closed = true ∧ (run ops s).listeners = [] := by
  induction ops with
  | nil => intro s h1 h2; exact ⟨h1, h2⟩
  | cons op ops ih =>
    intro s h1 h2
    rw [run_cons]
    obtain ⟨h1', h2'⟩ := step_closed_empty op s h1 h2
    exact ih _ h1' h2'

theorem run_inv_closed_empty {T : Type} (ops : List (Op T)) :
    ∀ (s : ChannelState T), (s.closed = true → s.listeners = []) →
    ((run ops s).closed = true → (run ops s).listeners = []) := by
  induction ops with
  | nil => intro s h; exact h
  | cons op ops ih =>
    intro s h
    rw [run_cons]
    exact ih _ (step_inv_closed_empty op s h)

theorem run_nodup {T : Type} (ops : List (Op T)) :
    ∀ (s : ChannelState T), s.listeners.Nodup → (run ops s).listeners.Nodup := by
  induction ops with
  | nil => intro s h; exact h
  | cons op ops ih =>
    intro s h
    rw [run_cons]
    exact ih _ (step_nodup op s h)

theorem run_last_of_no_publish {T : Type} (ops : List (Op T)) :
    ∀ (s : ChannelState T), (∀ op ∈ ops, isPublishOp op = false) →
    (run ops s).last = s.last := by
  induction ops with
  | nil => intro s _; rfl
  | cons op ops ih =>
    intro s h
    rw [run_cons, ih _ (fun o ho => h o (List.mem_cons_of_mem op ho)),
      step_last_of_not_publish op s (h op (List.mem_cons_self op ops))]

/-- C1: Publish(v) attempts delivery to every currently registered sink
exactly once.  A sink whose bounded queue has spare capacity at the moment
of Publish receives `v` (appended to its queue) and stays registered; a
sink whose queue is full is removed from the registry and closed with its
queue unchanged, so it never receives `v`; and a sink that is not
registered is untouched and not added, so an evicted sink also receives no
later value. -/
theorem Publish_fanout {T : Type} (v : T) (s : ChannelState T)
    (hnd : s.listeners.Nodup) :
    (∀ ch, ch ∈ s.listeners →
      if (s.sinks ch).buf.length < (s.sinks ch).capacity
      then ch ∈ (Publish v s).listeners ∧
        (Publish v s).sinks ch =
          { s.sinks ch with buf := (s.sinks ch).buf ++ [v] }
      else ch ∉ (Publish v s).listeners ∧
        (Publish v s).sinks ch = markClosed (s.sinks ch)) ∧
    (∀ ch, ch ∉ s.listeners →
      (Publish v s).sinks ch = s.sinks ch ∧
      ch ∉ (Publish v s).listeners) := by
  obtain ⟨pa, _, pc, _, pe⟩ := publishLoop_spec v s.listeners.length 0
    s.listeners s.sinks (by omega) hnd
  rw [List.drop_zero] at pa pe
  have hl : (Publish v s).listeners = (publishLoop v 0 s.listeners s.sinks).1 :=
    rfl
  have hk : (Publish v s).sinks = (publishLoop v 0 s.listeners s.sinks).2 :=
    rfl
  constructor
  · intro ch hch
    rw [hl, hk]
    exact pe ch hch
  · intro ch hch
    rw [hl, hk]
    exact ⟨pa ch hch, fun hx => hch (pc ch hx)⟩

/-- C1 witness: on a channel with sinks 0 (spare capacity) and 1 (full),
Publish 7 delivers to sink 0 and evicts sink 1. -/
theorem Publish_fanout_witness :
    exSt.listeners.Nodup ∧
    ((∀ ch, ch ∈ exSt.listeners →
      if (exSt.sinks ch).buf.length < (exSt.sinks ch).capacity
      then ch ∈ (Publish 7 exSt).listeners ∧
        (Publish 7 exSt).sinks ch =
          { exSt.sinks ch with buf := (exSt.sinks ch).buf ++ [7] }
      else ch ∉ (Publish 7 exSt).listeners ∧
        (Publish 7 exSt).sinks ch = markClosed (exSt.sinks ch)) ∧
    (∀ ch, ch ∉ exSt.listeners →
      (Publish 7 exSt).sinks ch = exSt.sinks ch ∧
      ch ∉ (Publish 7 exSt).listeners)) :=
  ⟨by decide, Publish_fanout 7 exSt (by decide)⟩

/-- C2 counterexample: `last` is the Go zero value of `T`, not an explicit
none marker.  On a fresh channel over `Int`, Last() returns 0, and after
Publish(0) it still returns 0: the never-published reading is not
distinguishable from every published value. -/
theorem Last_marker_not_distinguishable :
    Last (Publish (0 : Int) (initState intEnv)) = Last (initState intEnv) ∧
    Last (initState intEnv) = 0 :=
  ⟨rfl, rfl⟩

/-- C2 (amended): Last() returns the zero value (default) of the value
type whenever Publish has never been called — a reading that publishing
the zero value itself also produces, so it is not a distinguishable
marker; and after any Publish(v) — unconditionally, even if every
subscriber was just evicted or none exist — Last() returns v until the
next Publish (any publish-free sequence of operations preserves it). -/
theorem Last_spec {T : Type} [Inhabited T] (f : Nat → Sink T) (v : T)
    (s : ChannelState T) (ops : List (Op T))
    (hops : ∀ op ∈ ops, isPublishOp op = false) :
    Last (initState f) = (default : T) ∧
    Last (Publish v s) = v ∧
    Last (run ops (Publish v s)) = v := by
  refine ⟨rfl, rfl, ?_⟩
  show (run ops (Publish v s)).last = v
  rw [run_last_of_no_publish ops _ hops]
  rfl

/-- C2 witness: after Publish 7, Last stays 7 across a publish-free
sequence of calls. -/
theorem Last_spec_witness :
    (∀ op ∈ wOps, isPublishOp op = false) ∧
    (Last (initState intEnv) = (default : Int) ∧
     Last (Publish 7 (initState intEnv)) = 7 ∧
     Last (run wOps (Publish 7 (initState intEnv))) = 7) :=
  ⟨by decide, Last_spec intEnv 7 (initState intEnv) wOps (by decide)⟩

/-- C3: Close() sets the closed flag, empties the registry, and closes
every currently registered sink (each exactly once: by C8 the registry
has no duplicates, and a sink not registered is untouched); afterwards
IsClosed() returns true, and a repeated Close() performs no further
action — the second call produces the identical state, so no sink is
closed a second time. -/
theorem Close_spec {T : Type} (s : ChannelState T) :
    (Close s).closed = true ∧
    (Close s).listeners = [] ∧
    IsClosed (Close s) = true ∧
    (∀ ch, ch ∈ s.listeners → ((Close s).sinks ch).closed = true) ∧
    (∀ ch, ch ∉ s.listeners → (Close s).sinks ch = s.sinks ch) ∧
    Close (Close s) = Close s := by
  refine ⟨rfl, rfl, rfl, ?_, ?_, ?_⟩
  · intro ch hch
    show (closeSinks s.listeners s.sinks ch).closed = true
    rw [closeSinks_eq, if_pos hch]
    rfl
  · intro ch hch
    show closeSinks s.listeners s.sinks ch = s.sinks ch
    rw [closeSinks_eq, if_neg hch]
  · rfl

/-- C4: Subscribe on an already-closed channel does not add the sink,
returns the last known value with the no-op deregistration capability, and
leaves the state unchanged; invoking the no-op capability changes
nothing. -/
theorem Subscribe_on_closed {T : Type} (ch : Nat) (s : ChannelState T)
    (h : s.closed = true) :
    Subscribe ch s = Except.ok (s.last, Closer.noop, s) ∧
    (∀ s2 : ChannelState T, runCloser Closer.noop s2 = s2) := by
  refine ⟨?_, fun s2 => rfl⟩
  unfold Subscribe
  rw [h]
  simp

/-- C4 witness: subscribing to a concrete closed channel. -/
theorem Subscribe_on_closed_witness :
    closedSt.closed = true ∧
    (Subscribe 0 closedSt = Except.ok (closedSt.last, Closer.noop, closedSt) ∧
     (∀ s2 : ChannelState Int, runCloser Closer.noop s2 = s2)) :=
  ⟨rfl, Subscribe_on_closed 0 closedSt rfl⟩

/-- C5: on an open channel, Subscribe with a currently registered sink
identity panics (the Go panic, modelled as `Except.error`) and the state
is left unmodified: registry, last value and closed flag unchanged. -/
theorem Subscribe_dup_panics {T : Type} (ch : Nat) (s : ChannelState T)
    (h1 : s.closed = false) (h2 : ch ∈ s.listeners) :
    Subscribe ch s =
      Except.error "channel passed multiple times to Subscribe()" ∧
    step (Op.subscribe ch) s = s := by
  constructor
  · unfold Subscribe
    rw [h1]
    simp [h2]
  · exact step_subscribe_dup h1 h2

/-- C5 witness: re-subscribing sink 5 on a channel where it is
registered. -/
theorem Subscribe_dup_panics_witness :
    (dupSt.closed = false ∧ (5 : Nat) ∈ dupSt.listeners) ∧
    (Subscribe 5 dupSt =
      Except.error "channel passed multiple times to Subscribe()" ∧
    step (Op.subscribe 5) dupSt = dupSt) :=
  ⟨⟨rfl, by decide⟩, Subscribe_dup_panics 5 dupSt rfl (by decide)⟩

/-- C6: the deregistration capability is idempotent.  If its sink is still
registered, invoking it removes the sink from the registry (length drops
by one, no other sink is added) and closes it; if the sink is no longer
registered — evicted by Publish, removed by Close, or removed by a prior
invocation — it leaves the state exactly unchanged, so a second invocation
after a first is always a safe no-op. -/
theorem closer_idempotent {T : Type} (ch : Nat) (s : ChannelState T)
    (hnd : s.listeners.Nodup) :
    (ch ∈ s.listeners →
      ch ∉ (runCloser (Closer.dereg ch) s).listeners ∧
      ((runCloser (Closer.dereg ch) s).sinks ch).closed = true ∧
      (runCloser (Closer.dereg ch) s).listeners.length =
        s.listeners.length - 1 ∧
      (∀ x, x ∈ (runCloser (Closer.dereg ch) s).listeners →
        x ∈ s.listeners) ∧
      runCloser (Closer.dereg ch) (runCloser (Closer.dereg ch) s) =
        runCloser (Closer.dereg ch) s) ∧
    (ch ∉ s.listeners → runCloser (Closer.dereg ch) s = s) := by
  constructor
  · intro hm
    obtain ⟨f1, f2, f3, f4, f5, _, _, _⟩ := runCloser_mem hnd hm
    exact ⟨f1, by rw [f5]; rfl, f4, f3, runCloser_notMem f1⟩
  · exact runCloser_notMem

/-- C6 witness: deregistering sink 0 from a concrete channel. -/
theorem closer_idempotent_witness :
    exSt.listeners.Nodup ∧
    (((0 : Nat) ∈ exSt.listeners →
      (0 : Nat) ∉ (runCloser (Closer.dereg 0) exSt).listeners ∧
      ((runCloser (Closer.dereg 0) exSt).sinks 0).closed = true ∧
      (runCloser (Closer.dereg 0) exSt).listeners.length =
        exSt.listeners.length - 1 ∧
      (∀ x, x ∈ (runCloser (Closer.dereg 0) exSt).listeners →
        x ∈ exSt.listeners) ∧
      runCloser (Closer.dereg 0) (runCloser (Closer.dereg 0) exSt) =
        runCloser (Closer.dereg 0) exSt) ∧
    ((0 : Nat) ∉ exSt.listeners → runCloser (Closer.dereg 0) exSt = exSt)) :=
  ⟨by decide, closer_idempotent 0 exSt (by decide)⟩

/-- C7: in every state reachable from a fresh channel by any sequence of
API calls, once the closed flag is true it never resets and the registry
is and stays empty: if some prefix of calls has closed the channel, then
after any further calls the flag is still true and the listener list is
empty. -/
theorem closed_monotone {T : Type} [Inhabited T] (f : Nat → Sink T)
    (ops1 ops2 : List (Op T))
    (h : (run ops1 (initState f)).closed = true) :
    (run (ops1 ++ ops2) (initState f)).closed = true ∧
    (run (ops1 ++ ops2) (initState f)).listeners = [] := by
  have hemp : (run ops1 (initState f)).listeners = [] := by
    refine run_inv_closed_empty ops1 (initState f) ?_ h
    intro hc
    simp [initState] at hc
  rw [run_append]
  exact run_closed_empty ops2 _ h hemp

/-- C7 witness: close the channel, then keep calling it. -/
theorem closed_monotone_witness :
    (run [Op.close] (initState intEnv)).closed = true ∧
    ((run ([Op.close] ++ [Op.subscribe 1, Op.publish 9, Op.readIsClosed])
        (initState intEnv)).closed = true ∧
     (run ([Op.close] ++ [Op.subscribe 1, Op.publish 9, Op.readIsClosed])
        (initState intEnv)).listeners = []) :=
  ⟨rfl, closed_monotone intEnv [Op.close]
    [Op.subscribe 1, Op.publish 9, Op.readIsClosed] rfl⟩

/-- C8: in every state reachable from a fresh channel by any sequence of
API calls, a given sink identity appears in the registry at most once:
the listener list has no duplicates. -/
theorem listeners_nodup {T : Type} [Inhabited T] (f : Nat → Sink T)
    (ops : List (Op T)) :
    (run ops (initState f)).listeners.Nodup :=
  run_nodup ops (initState f) (by simp [initState])

/-- C9: Publish terminates and its fan-out loop attempts each registered
sink exactly once.  The trace of attempted sinks is a permutation of the
registry (each registered sink attempted exactly once, none repeated),
and its length — the number of loop iterations — is exactly the initial
registry size.  Termination itself is witnessed by `publishLoop` being a
total function, defined by well-founded recursion on `ls.length - i`,
the number of not-yet-attempted sinks, which every iteration strictly
decreases. -/
theorem Publish_attempts_each_once {T : Type} (v : T) (s : ChannelState T)
    (hnd : s.listeners.Nodup) :
    List.Perm (publishLoopTrace v 0 s.listeners s.sinks) s.listeners ∧
    (publishLoopTrace v 0 s.listeners s.sinks).length =
      s.listeners.length := by
  have hp := publishLoopTrace_perm v s.listeners.length 0 s.listeners
    s.sinks (by omega) hnd
  rw [List.drop_zero] at hp
  exact ⟨hp, hp.length_eq⟩

/-- C9 witness: publishing on a concrete two-subscriber channel attempts
exactly sinks 0 and 1. -/
theorem Publish_attempts_each_once_witness :
    exSt.listeners.Nodup ∧
    (List.Perm (publishLoopTrace 7 0 exSt.listeners exSt.sinks)
      exSt.listeners ∧
    (publishLoopTrace 7 0 exSt.listeners exSt.sinks).length =
      exSt.listeners.length) :=
  ⟨by decide, Publish_attempts_each_once 7 exSt (by decide)⟩

/-- C10: the duplicate-registration panic is the only abort in the API.
Publish, Close, Last, IsClosed and the deregistration capabilities are
total functions of the model by construction, and Subscribe returns an
error exactly when the channel is not closed and the sink is currently
registered — in particular, on a closed channel Subscribe never panics,
whatever the sink, because the closed branch returns before the duplicate
check. -/
theorem Subscribe_panic_iff {T : Type} (ch : Nat) (s : ChannelState T) :
    (∃ e, Subscribe ch s = Except.error e) ↔
      s.closed = false ∧ ch ∈ s.listeners := by
  unfold Subscribe
  by_cases hcl : s.closed
  · simp [hcl]
  · by_cases hm : ch ∈ s.listeners
    · simp [hcl, hm]
    · simp [hcl, hm]

end Broadcast
